import Mathlib

/-!
Shallow embedding of the `rhesus-macaque` translation-gap engine
(`src/main.rs`, `src/translator.rs`) and proofs about the claims of
its specification.

Modelling conventions:
* Rust `PathBuf` is `RPath` (an absoluteness flag plus a component list);
  `PathBuf::join` replaces the whole path when the argument is absolute,
  which `RPath.join` reproduces.
* The filesystem is a finite association `List (RPath × String)` of file
  contents; `fs::read_to_string` is `readFile`.
* `HashMap` / `IndexMap` are association lists whose `insert` replaces the
  value of an existing key in place (`Assoc.insert`), so HashMap
  last-write-wins behaviour is visible.
* Panics (`expect` / `unwrap`) are the `none` of an outer `Option`; Rust
  `Result` is `Except`.
* YAML deserialization is an external collaborator of the program, so the
  extractor is parametrized by an abstract decoder
  `decode : String → Option FrontMatter`; a small concrete decoder
  (`lineKeyDecode`) instantiates it on simple front matters for witnesses.
* Subprocess invocations (`hugo config`, `hugo list drafts`) are external;
  the run is parametrized by their already-parsed outputs, and the pure
  CSV projection `draft_files` is modelled on the raw stdout string.
-/
set_option autoImplicit false

/-- Rust `char::is_whitespace` restricted to the ASCII range used here. -/
def isWS (c : Char) : Bool :=
  c = ' ' || c = '\t' || c = '\r' || c = '\n'

/-- Rust `str::trim` on the character list. -/
def trimList (l : List Char) : List Char :=
  ((l.dropWhile isWS).reverse.dropWhile isWS).reverse

/-- Rust `str::trim`. -/
def trimStr (s : String) : String :=
  String.mk (trimList s.data)

/-- Helper for `splitChar`: accumulates the current field (reversed). -/
def splitCharAux (c : Char) : List Char → List Char → List String
  | [], acc => [String.mk acc.reverse]
  | x :: rest, acc =>
    if x = c then String.mk acc.reverse :: splitCharAux c rest []
    else splitCharAux c rest (x :: acc)

/-- Rust `str::split(c)`: splits on every occurrence of `c`, keeping empty
fields (so the empty string yields one empty field and a trailing separator
yields a trailing empty field). -/
def splitChar (s : String) (c : Char) : List String :=
  splitCharAux c s.data []

/-- Joins fields with a separator, the inverse of `splitChar`. -/
def joinSep (sep : String) : List String → String
  | [] => ""
  | [x] => x
  | x :: rest => x ++ sep ++ joinSep sep rest

/-- Joins lines with a line feed, used when re-joining the front-matter
lines. -/
def joinNL (ls : List String) : String := joinSep "\n" ls

/-- Rust `str::lines`: split at line feeds, a final line ending being
optional (no trailing empty line), and a trailing carriage return stripped
from each line. -/
def rustLines (s : String) : List String :=
  let ls := splitChar s '\n'
  let ls := if ls.getLast? = some "" then ls.dropLast else ls
  ls.map (fun l => String.mk (if l.data.getLast? = some '\r' then l.data.dropLast else l.data))

/-- A filesystem path: Rust `PathBuf`, modelled as an absoluteness flag and
the list of components. -/
structure RPath where
  absolute : Bool
  components : List String
deriving DecidableEq, Repr

/-- Rust `PathBuf::join`: an absolute argument replaces the whole path. -/
def RPath.join (self other : RPath) : RPath :=
  if other.absolute then other
  else ⟨self.absolute, self.components ++ other.components⟩

/-- Rust `Path::strip_prefix` (as `Option`): removes a leading base,
yielding a relative path. -/
def RPath.relativeTo (self base : RPath) : Option RPath :=
  if self.absolute = base.absolute && base.components.isPrefixOf self.components then
    some ⟨false, self.components.drop base.components.length⟩
  else none

/-- Rust `Path::parent` (`none` for the root or the empty path). -/
def RPath.parentQ (self : RPath) : Option RPath :=
  match self.components with
  | [] => none
  | _ => some ⟨self.absolute, self.components.dropLast⟩

/-- Rust `Path::extension() == Some("md")`: the final extension is exactly
`md` (a file name that is only `.md` has no extension). -/
def RPath.extensionIsMd (self : RPath) : Bool :=
  match self.components.getLast? with
  | some name => ".md".data.isSuffixOf name.data && name ≠ ".md"
  | none => false

/-- Rust `Path::file_stem`: the final component with its last extension
removed (`none` when there is no final component). -/
def RPath.fileStemQ (self : RPath) : Option String :=
  self.components.getLast?.map (fun name =>
    match splitChar name '.' with
    | [] => name
    | [_] => name
    | ["", _] => name
    | parts => joinSep "." parts.dropLast)

/-- Reads a path string the way `PathBuf::from` would (keeping only
non-empty components). -/
def strToPath (s : String) : RPath :=
  ⟨"/".data.isPrefixOf s.data, (splitChar s '/').filter (fun c => c ≠ "")⟩

/-- `Assoc α β` models both `HashMap` and `IndexMap` of the source: an
association list whose `insert` replaces in place. -/
abbrev Assoc (α β : Type) : Type := List (α × β)

def Assoc.get {α β : Type} [DecidableEq α] : Assoc α β → α → Option β
  | [], _ => none
  | (k', v) :: rest, k => if k' = k then some v else Assoc.get rest k

/-- `HashMap::insert` / `IndexMap::insert`: replaces the value of an
existing key in place, otherwise appends. -/
def Assoc.insert {α β : Type} [DecidableEq α] : Assoc α β → α → β → Assoc α β
  | [], k, v => [(k, v)]
  | (k', v') :: rest, k, v =>
    if k' = k then (k, v) :: rest else (k', v') :: Assoc.insert rest k v

def Assoc.keys {α β : Type} (m : Assoc α β) : List α := m.map Prod.fst

/-- `List.mapM` in the `Option` monad, written out (a `none` anywhere makes
the whole traversal `none`). -/
def optTraverse {α β : Type} (f : α → Option β) : List α → Option (List β)
  | [] => some []
  | x :: rest =>
    match f x with
    | none => none
    | some y =>
      match optTraverse f rest with
      | none => none
      | some ys => some (y :: ys)

/-- The error enum of `main.rs` (payloads that only carry foreign error
objects are dropped). -/
inductive Error : Type
  | CommandInvocationFailed
  | HugoCommandFailed (stderr : String)
  | Yaml
  | NoTranslationPossible
  | FileHasNoName
  | CouldNotReadFile (p : RPath)
  | NoFrontMatterFound (p : RPath)
  | FrontMatterParsingFailed
deriving DecidableEq, Repr

/-- The decoded front matter: `serde` keeps only the `translationKey`
field. -/
structure FrontMatter where
  translation_key : String
deriving DecidableEq, Repr

/-- `FileMetadata` of `main.rs`. -/
structure FileMetadata where
  path : RPath
  language_identifier : String
  base_name : String
  translation_key : String
deriving DecidableEq, Repr

/-- The filesystem model: a finite association of file paths to contents. -/
abbrev FS : Type := List (RPath × String)

/-- `fs::read_to_string` (`none` is an I/O error): the first entry with the
given path. -/
def readFile : FS → RPath → Option String
  | [], _ => none
  | (p', c) :: rest, p => if p' = p then some c else readFile rest p

/-- `find_markdown_files`: every filesystem entry below the directory whose
final extension is exactly `md`, in filesystem (walker) order. -/
def findMarkdownFiles (fs : FS) (directory : RPath) : List RPath :=
  (fs.map Prod.fst).filter
    (fun p => (p.relativeTo directory).isSome && p.extensionIsMd)

/-- The fence-locating loop of `FileMetadata::try_from`: scan the lines,
record the index of the first line whose trimmed content is `---` as the
start, break at the second such line as the end. -/
def findFencesAux (c : List String) (idx : Nat) (startIdx : Option Nat) :
    Option (Nat × Nat) :=
  match c with
  | [] => none
  | l :: rest =>
    if trimStr l = "---" then
      match startIdx with
      | none => findFencesAux rest (idx + 1) (some idx)
      | some s => some (s, idx)
    else findFencesAux rest (idx + 1) startIdx

/-- `FileMetadata::try_from`: read the file, locate the first two `---`
fence lines, re-join the lines strictly between them, decode them as YAML
(the abstract `decode`), and package the metadata. -/
def FileMetadata.tryFrom (fs : FS) (decode : String → Option FrontMatter)
    (path : RPath) (language_identifier : String) :
    Except Error FileMetadata :=
  match path.fileStemQ with
  | none => .error .FileHasNoName
  | some base_name =>
    match readFile fs path with
    | none => .error (.CouldNotReadFile path)
    | some file_content =>
      let lines := splitChar file_content '\n'
      match findFencesAux lines 0 none with
      | none => .error (.NoFrontMatterFound path)
      | some (start, stop) =>
        let yaml_lines := (lines.drop (start + 1)).take (stop - (start + 1))
        let yaml_content := joinNL yaml_lines
        match decode yaml_content with
        | none => .error .FrontMatterParsingFailed
        | some front_matter =>
          .ok { path := path, language_identifier := language_identifier,
                base_name := base_name,
                translation_key := front_matter.translation_key }

/-- `HugoLanguageConfigDTO`. -/
structure HugoLanguageConfigDTO where
  language_name : String
deriving DecidableEq, Repr

/-- `HugoMountDTO` (`source` is a path read from the YAML). -/
structure HugoMountDTO where
  lang : Option String
  source : RPath
deriving DecidableEq, Repr

/-- `HugoModuleDTO`. -/
structure HugoModuleDTO where
  mounts : List HugoMountDTO
deriving DecidableEq, Repr

/-- `HugoConfigDTO` (the `languages` HashMap as an association list). -/
structure HugoConfigDTO where
  default_content_language : String
  content_dir : Option String
  languages : Assoc String HugoLanguageConfigDTO
  module : HugoModuleDTO
deriving Repr

/-- `HugoLanguageConfig`. -/
structure HugoLanguageConfig where
  content_dir : RPath
  language_name : String
deriving DecidableEq, Repr

/-- `HugoConfig` (`language_configs` is the ordered `IndexMap`). -/
structure HugoConfig where
  language_configs : Assoc String HugoLanguageConfig
deriving DecidableEq, Repr

/-- The `for mount in config.module.mounts` loop of `HugoConfig::new`:
record `root / mount.source` for every mount that carries a `lang`
(replacing in place on repeated languages, as `IndexMap::insert` does). -/
def mountDirsFrom (root : RPath) (acc : Assoc String RPath) :
    List HugoMountDTO → Assoc String RPath
  | [] => acc
  | mount :: rest =>
    mountDirsFrom root
      (match mount.lang with
       | some lang => acc.insert lang (root.join mount.source)
       | none => acc)
      rest

/-- One iteration of the `for language_identifier in content_dirs.keys()`
loop of `HugoConfig::new`: both `expect` calls are the `none` outcomes. -/
def languageConfigPair (config : HugoConfigDTO)
    (content_dirs : Assoc String RPath) (language_identifier : String) :
    Option (String × HugoLanguageConfig) :=
  match Assoc.get config.languages language_identifier with
  | none => none
  | some language_config =>
    match Assoc.get content_dirs language_identifier with
    | none => none
    | some content_dir =>
      some (language_identifier,
        ({ content_dir := content_dir,
           language_name := language_config.language_name } :
          HugoLanguageConfig))

/-- `HugoConfig::new`: collect the content directory of every mounted
language (later mounts for the same language replacing earlier ones in
place), then look every mounted language up in the `languages` map — the
`expect` there panics (`none`) when the language is absent. -/
def HugoConfig.new (config : HugoConfigDTO) (root : RPath) :
    Option HugoConfig :=
  (optTraverse
    (languageConfigPair config (mountDirsFrom root [] config.module.mounts))
    (mountDirsFrom root [] config.module.mounts).keys).map
    (fun language_configs => { language_configs := language_configs })

/-- The first component of `str::split_once(",")` (`none` when the line
holds no comma — the `unwrap` in `draft_files` panics there). -/
def splitOnceFirst (l : String) : Option String :=
  match splitChar l ',' with
  | [] => none
  | [_] => none
  | f :: _ => some f

/-- `draft_files`, as a function of the raw `hugo list drafts` stdout:
skip the CSV header line, take the first column of every remaining line
(panicking — `none` — on a line without a comma), and resolve it against
the site root. -/
def draft_files (site_root : RPath) (stdout : String) :
    Option (List RPath) :=
  optTraverse
    (fun l => (splitOnceFirst l).map (fun p => site_root.join (strToPath p)))
    ((rustLines stdout).drop 1)

/-- The `Translator` capability set of `translator.rs`: both calls are
fallible (`Box<dyn Error>` payloads kept as strings). -/
structure MTranslator where
  translatePath : RPath → String → String → Except String RPath
  translateContent : String → String → String → String → Except String String

/-- The null-sink path `/dev/null` (an absolute path). -/
def devNull : RPath := ⟨true, ["dev", "null"]⟩

/-- `DryRunTranslator`: the path call returns `/dev/null`, the content call
returns the literal `DRY_RUN`; both are pure constants (no I/O). -/
def dryRunTranslator : MTranslator where
  translatePath := fun _ _ _ => .ok devNull
  translateContent := fun _ _ _ _ => .ok "DRY_RUN"

/-- An error produced by a run: either one of the engine error variants or
a boxed translator error (both flow into the same `Box<dyn Error>` return
of `main`). -/
inductive RunError : Type
  | engine (e : Error)
  | backend (msg : String)
deriving DecidableEq, Repr

/-- One `fs::write` performed by the run: destination path and contents,
together with the loop indices (translation key, source and target
language) that produced it. -/
structure FileWrite where
  translation_key : String
  from_lang : String
  to_lang : String
  dest : RPath
  contents : String
deriving DecidableEq, Repr

/-- The TranslationIndex `all_translations`: translation key to (language
identifier to metadata). -/
abbrev TranslationIndex : Type := Assoc String (Assoc String FileMetadata)

/-- One insertion into `all_translations`:
`entry(key).or_insert(HashMap::new()).insert(lang, metadata)`. -/
def insertTranslation (idx : TranslationIndex) (metadata : FileMetadata) :
    TranslationIndex :=
  idx.insert metadata.translation_key
    (((idx.get metadata.translation_key).getD []).insert
      metadata.language_identifier metadata)

/-- A cell lookup in the TranslationIndex. -/
def indexGet (idx : TranslationIndex) (key lang : String) :
    Option FileMetadata :=
  match idx.get key with
  | none => none
  | some cell => cell.get lang

/-- The intermediate state of the collection loop of `main`:
`files_metadata` and `all_translations`. -/
structure RunState where
  files_metadata : List FileMetadata
  all_translations : TranslationIndex
deriving Repr

/-- One iteration of the per-language loop of `main`: walk the content
directory, keep the files whose extraction succeeds, record every one of
them in the TranslationIndex, and append the non-draft ones to
`files_metadata`. -/
def processLanguage (fs : FS) (decode : String → Option FrontMatter)
    (drafts : List RPath) (st : RunState) (language_identifier : String)
    (language_config : HugoLanguageConfig) : RunState :=
  let files := findMarkdownFiles fs language_config.content_dir
  let translatable_files := files.filterMap
    (fun path =>
      (FileMetadata.tryFrom fs decode path language_identifier).toOption)
  let all_translations :=
    translatable_files.foldl insertTranslation st.all_translations
  let non_drafts := translatable_files.filter
    (fun metadata => !(decide (metadata.path ∈ drafts)))
  { files_metadata := st.files_metadata ++ non_drafts,
    all_translations := all_translations }

/-- The whole collection phase of `main`, over the languages in configured
order. -/
def collectState (fs : FS) (decode : String → Option FrontMatter)
    (drafts : List RPath) (cfg : HugoConfig) : RunState :=
  cfg.language_configs.foldl
    (fun st p => processLanguage fs decode drafts st p.1 p.2)
    ⟨[], []⟩

/-- The target-language set of a source document: all configured languages
minus the languages already present in the cell the document shares in the
TranslationIndex (a `HashSet` difference, determinized here in configured
language order). -/
def targetLanguages (cfg : HugoConfig) (idx : TranslationIndex)
    (metadata : FileMetadata) : List String :=
  let translations := (idx.get metadata.translation_key).getD []
  (Assoc.keys cfg.language_configs).filter
    (fun l => !(decide (l ∈ Assoc.keys translations)))

/-- The inner `for to_lang in to_translate` loop of `main`: look the target
language up (`expect` panics as `none`), call the translator twice (a
translator error aborts via `?`), derive the destination by joining the
target content directory with the translated relative path, and record the
write (`create_dir_all(parent.unwrap())` panics when the destination has no
parent; the writes themselves succeed in this model). -/
def translatePairs (cfg : HugoConfig) (tr : MTranslator)
    (metadata : FileMetadata) (content_file_path : RPath)
    (original_content : String) :
    List String → Option (Except RunError (List FileWrite))
  | [] => some (.ok [])
  | to_lang :: rest =>
    match cfg.language_configs.get to_lang with
    | none => none
    | some to_language_config =>
      match tr.translatePath content_file_path
          metadata.language_identifier to_lang with
      | .error e => some (.error (.backend e))
      | .ok translated_rel =>
        let translated_file_path :=
          to_language_config.content_dir.join translated_rel
        match tr.translateContent original_content
            metadata.language_identifier to_lang "hash" with
        | .error e => some (.error (.backend e))
        | .ok translation =>
          match translated_file_path.parentQ with
          | none => none
          | some _ =>
            match translatePairs cfg tr metadata content_file_path
                original_content rest with
            | none => none
            | some (.error e) => some (.error e)
            | some (.ok ws) =>
              some (.ok
                ({ translation_key := metadata.translation_key,
                   from_lang := metadata.language_identifier,
                   to_lang := to_lang,
                   dest := translated_file_path,
                   contents := translation } :: ws))

/-- One iteration of the outer `for metadata in files_metadata` loop of
`main`: compute the missing target languages, look the source language up
(`expect` panics as `none`), re-read the source file (a read error aborts
the run via `?`), strip the content-directory from the source path
(`expect` panics as `none`), then translate every target pair. -/
def processMetadata (fs : FS) (cfg : HugoConfig) (tr : MTranslator)
    (idx : TranslationIndex) (metadata : FileMetadata) :
    Option (Except RunError (List FileWrite)) :=
  let to_translate := targetLanguages cfg idx metadata
  match cfg.language_configs.get metadata.language_identifier with
  | none => none
  | some from_language_config =>
    match readFile fs metadata.path with
    | none => some (.error (.engine (.CouldNotReadFile metadata.path)))
    | some original_content =>
      match metadata.path.relativeTo from_language_config.content_dir with
      | none => none
      | some content_file_path =>
        translatePairs cfg tr metadata content_file_path original_content
          to_translate

/-- The whole translation phase of `main`, over the collected sources in
order; the first error aborts. -/
def translateAll (fs : FS) (cfg : HugoConfig) (tr : MTranslator)
    (idx : TranslationIndex) :
    List FileMetadata → Option (Except RunError (List FileWrite))
  | [] => some (.ok [])
  | metadata :: rest =>
    match processMetadata fs cfg tr idx metadata with
    | none => none
    | some (.error e) => some (.error e)
    | some (.ok ws) =>
      match translateAll fs cfg tr idx rest with
      | none => none
      | some (.error e) => some (.error e)
      | some (.ok ws') => some (.ok (ws ++ ws'))

/-- The inputs of a run that come from outside the engine: the parsed
generator configuration, the site root, the filesystem, the YAML decoder,
the include-drafts flag and the draft list the lister produced. -/
structure RunInput where
  dto : HugoConfigDTO
  root : RPath
  fs : FS
  decode : String → Option FrontMatter
  draftsFlag : Bool
  draftList : List RPath

/-- `main` after configuration parsing: project the configuration (a panic
is `none`), abort when fewer than two languages are configured, build the
draft set (empty when the flag asks for drafts to be included), collect the
metadata and the TranslationIndex, and run the translation loop. The
result is the ordered list of file writes the run performs. -/
def run (tr : MTranslator) (inp : RunInput) :
    Option (Except RunError (List FileWrite)) :=
  match HugoConfig.new inp.dto inp.root with
  | none => none
  | some hugo_config =>
    if hugo_config.language_configs.length < 2 then
      some (.error (.engine .NoTranslationPossible))
    else
      let drafts := if inp.draftsFlag then [] else inp.draftList
      let st := collectState inp.fs inp.decode drafts hugo_config
      translateAll inp.fs hugo_config tr st.all_translations
        st.files_metadata

/-- The paths occupied by the cells of a TranslationIndex. -/
def cellPaths (idx : TranslationIndex) : List RPath :=
  idx.foldr (fun p acc => (p.2.map (fun q => q.2.path)) ++ acc) []

/-- A concrete decoder standing in for the external YAML deserializer on
single-key front matters. Modelled from the spec: YAML deserialization is
an external collaborator (spec scope section); on inputs whose lines
include one of the form `translationKey: value` it yields that value. -/
def lineKeyDecode (yaml : String) : Option FrontMatter :=
  ((splitChar yaml '\n').filterMap
    (fun l =>
      match splitChar l ':' with
      | [k, v] =>
        if trimStr k = "translationKey" then some (trimStr v) else none
      | _ => none)).head?.map
    (fun v => { translation_key := v })

instance {ε α : Type} [DecidableEq ε] [DecidableEq α] :
    DecidableEq (Except ε α) := fun a b =>
  match a, b with
  | .error e, .error e' =>
    if h : e = e' then .isTrue (h ▸ rfl)
    else .isFalse (fun hh => h (Except.error.inj hh))
  | .error _, .ok _ => .isFalse Except.noConfusion
  | .ok _, .error _ => .isFalse Except.noConfusion
  | .ok v, .ok v' =>
    if h : v = v' then .isTrue (h ▸ rfl)
    else .isFalse (fun hh => h (Except.ok.inj hh))

/-! ### Concrete scenario material (used by counterexamples and witnesses) -/
/-- A Markdown file whose front matter carries the given translation key. -/
def mdFile (key body : String) : String :=
  "---\ntranslationKey: " ++ key ++ "\n---\n" ++ body

/-- The site root of the concrete scenarios. -/
def siteRoot : RPath := strToPath "site"

/-- A two-language (`en`, `fr`) generator configuration with one mount per
language. -/
def dtoEnFr : HugoConfigDTO :=
  { default_content_language := "en"
    content_dir := none
    languages := [("en", ⟨"English"⟩), ("fr", ⟨"French"⟩)]
    module := ⟨[⟨some "en", strToPath "content/en"⟩,
                ⟨some "fr", strToPath "content/fr"⟩]⟩ }

def enA : RPath := strToPath "site/content/en/a.md"

def enB : RPath := strToPath "site/content/en/b.md"

def frA : RPath := strToPath "site/content/fr/a.md"

/-- Scenario 1 of the spec: a single `en` page with key `alpha` and no
`fr` counterpart. -/
def inputScenario1 : RunInput :=
  { dto := dtoEnFr, root := siteRoot
    fs := [(enA, mdFile "alpha" "body")]
    decode := lineKeyDecode, draftsFlag := false, draftList := [] }

/-- A configuration whose `languages` map holds `en` and `fr` but whose
only mount carries `en`. -/
def dtoOnlyEnMount : HugoConfigDTO :=
  { default_content_language := "en"
    content_dir := none
    languages := [("en", ⟨"English"⟩), ("fr", ⟨"French"⟩)]
    module := ⟨[⟨some "en", strToPath "content/en"⟩]⟩ }

/-- The mapping `HugoConfig::new` actually produces for
`dtoOnlyEnMount`. -/
def cfgOnlyEn : HugoConfig :=
  { language_configs := [("en",
      { content_dir := strToPath "site/content/en",
        language_name := "English" })] }

/-- The projected configuration for `dtoEnFr` at `siteRoot`. -/
def cfgEnFr : HugoConfig :=
  { language_configs :=
      [("en", { content_dir := strToPath "site/content/en",
                language_name := "English" }),
       ("fr", { content_dir := strToPath "site/content/fr",
                language_name := "French" })] }

/-- Metadata of `site/content/en/a.md` with key `alpha`. -/
def metaEnA : FileMetadata :=
  { path := enA, language_identifier := "en", base_name := "a",
    translation_key := "alpha" }

/-- Metadata of `site/content/en/b.md` with key `alpha`. -/
def metaEnBAlpha : FileMetadata :=
  { path := enB, language_identifier := "en", base_name := "b",
    translation_key := "alpha" }

/-- The single write a dry run of scenario 1 performs. -/
def dryWriteAlphaFr : FileWrite :=
  { translation_key := "alpha", from_lang := "en", to_lang := "fr",
    dest := devNull, contents := "DRY_RUN" }

/-- Two `en` documents carrying the same translation key `alpha`. -/
def inputDupKey : RunInput :=
  { dto := dtoEnFr, root := siteRoot
    fs := [(enA, mdFile "alpha" "A"), (enB, mdFile "alpha" "B")]
    decode := lineKeyDecode, draftsFlag := false, draftList := [] }

/-! ### C7: front-matter round-trip -/
/-- Spec side: the indices (from `idx` on) of the lines whose trimmed
content is exactly `---`. -/
def fenceIndicesFrom : List String → Nat → List Nat
  | [], _ => []
  | l :: rest, idx =>
    if trimStr l = "---" then idx :: fenceIndicesFrom rest (idx + 1)
    else fenceIndicesFrom rest (idx + 1)

/-- Spec side: the YAML document formed by the lines strictly between the
first two lines whose trimmed content is exactly `---`, re-joined by line
feeds. -/
def specFrontMatterYaml (file_content : String) : Option String :=
  let lines := splitChar file_content '\n'
  match fenceIndicesFrom lines 0 with
  | a :: b :: _ => some (joinNL ((lines.drop (a + 1)).take (b - (a + 1))))
  | _ => none

/-- Spec side: the value of the `translationKey` field of the YAML document
between the first two fences of the file at `path`. -/
def specExtractKey (fs : FS) (decode : String → Option FrontMatter)
    (path : RPath) : Option String :=
  match readFile fs path with
  | none => none
  | some content =>
    match specFrontMatterYaml content with
    | none => none
    | some yaml => (decode yaml).map (fun fm => fm.translation_key)

/-! ### C1: what the run writes -/
/-- A translator that keeps the file path unchanged and returns a fixed
body. -/
def idTranslator : MTranslator where
  translatePath := fun p _ _ => .ok p
  translateContent := fun _ _ _ _ => .ok "X"

/-- Two documents with different translation keys at the mirrored path
`a.md` in the two languages. -/
def inputCrossKeys : RunInput :=
  { dto := dtoEnFr, root := siteRoot
    fs := [(enA, mdFile "alpha" "body"), (frA, mdFile "beta" "corps")]
    decode := lineKeyDecode, draftsFlag := false, draftList := [] }

/-! ### C3: translator errors abort the run -/
/-- A translator whose path call always fails. -/
def failTranslator : MTranslator where
  translatePath := fun _ _ _ => .error "boom"
  translateContent := fun _ _ _ _ => .ok "X"

/-- A translator whose path call succeeds unchanged but whose content call
always fails. -/
def contentFailTranslator : MTranslator where
  translatePath := fun p _ _ => .ok p
  translateContent := fun _ _ _ _ => .error "cboom"

/-- Two `en` sources with keys `alpha` and `beta`, both missing in `fr`:
two (source, target) pairs of work. -/
def inputTwoSources : RunInput :=
  { dto := dtoEnFr, root := siteRoot
    fs := [(enA, mdFile "alpha" "a"), (enB, mdFile "beta" "b")]
    decode := lineKeyDecode, draftsFlag := false, draftList := [] }

/-- Metadata of `site/content/en/b.md` with key `beta`. -/
def metaEnBBeta : FileMetadata :=
  { path := enB, language_identifier := "en", base_name := "b",
    translation_key := "beta" }

/-- Metadata of `site/content/fr/a.md` with key `alpha`. -/
def metaFrAAlpha : FileMetadata :=
  { path := frA, language_identifier := "fr", base_name := "a",
    translation_key := "alpha" }

/-- The `en` language record of `cfgEnFr`. -/
def enLC : HugoLanguageConfig :=
  { content_dir := strToPath "site/content/en", language_name := "English" }

/-- Scenario 3 of the spec: `en` and `fr` copies of key `alpha`, with the
`en` copy reported as a draft. -/
def fsDraftScenario : FS :=
  [(enA, mdFile "alpha" "body"), (frA, mdFile "alpha" "corps")]

/-! ### C4: extractor failures are not fatal -/
/-- Removes every entry with the given path from the filesystem. -/
def removeFile : FS → RPath → FS
  | [], _ => []
  | (q, c) :: rest, p =>
    if q = p then removeFile rest p else (q, c) :: removeFile rest p

/-- A filesystem holding one good document and one file without front
matter. -/
def inputBadFile : RunInput :=
  { dto := dtoEnFr, root := siteRoot
    fs := [(enA, mdFile "alpha" "body"), (enB, "plain text body")]
    decode := lineKeyDecode, draftsFlag := false, draftList := [] }

/-! ### Theorems -/

/-! ### Association-list lemmas -/
theorem Assoc.get_insert_self {α β : Type} [DecidableEq α]
    (m : Assoc α β) (k : α) (v : β) : (m.insert k v).get k = some v := by
  induction m with
  | nil => simp [Assoc.insert, Assoc.get]
  | cons p rest ih =>
    obtain ⟨a, b⟩ := p
    by_cases h : a = k
    · simp [Assoc.insert, Assoc.get, h]
    · simp only [Assoc.insert, if_neg h, Assoc.get]
      exact ih

theorem Assoc.get_insert_ne {α β : Type} [DecidableEq α]
    (m : Assoc α β) (k k' : α) (v : β) (h : k ≠ k') :
    (m.insert k v).get k' = m.get k' := by
  induction m with
  | nil => simp [Assoc.insert, Assoc.get, h]
  | cons p rest ih =>
    obtain ⟨a, b⟩ := p
    by_cases ha : a = k
    · subst ha
      simp [Assoc.insert, Assoc.get, h]
    · simp only [Assoc.insert, if_neg ha, Assoc.get]
      by_cases ha' : a = k' <;> simp [ha', ih]

theorem Assoc.get_eq_none_of_not_mem_keys {α β : Type} [DecidableEq α]
    (m : Assoc α β) (k : α) (h : k ∉ m.keys) : m.get k = none := by
  induction m with
  | nil => rfl
  | cons p rest ih =>
    obtain ⟨a, b⟩ := p
    simp only [Assoc.keys, List.map_cons, List.mem_cons, not_or] at h
    obtain ⟨h1, h2⟩ := h
    simp only [Assoc.get]
    rw [if_neg (fun hh => h1 hh.symm)]
    exact ih h2

theorem Assoc.get_isSome_of_mem_keys {α β : Type} [DecidableEq α]
    (m : Assoc α β) (k : α) (h : k ∈ m.keys) : (m.get k).isSome := by
  induction m with
  | nil => simp [Assoc.keys] at h
  | cons p rest ih =>
    obtain ⟨a, b⟩ := p
    by_cases hp : a = k
    · simp [Assoc.get, hp]
    · simp only [Assoc.keys, List.map_cons, List.mem_cons] at h
      rcases h with h | h
      · exact absurd h.symm hp
      · simp only [Assoc.get, if_neg hp]
        exact ih h

theorem Assoc.mem_keys_of_get_isSome {α β : Type} [DecidableEq α]
    (m : Assoc α β) (k : α) (h : (m.get k).isSome) : k ∈ m.keys := by
  induction m with
  | nil => simp [Assoc.get] at h
  | cons p rest ih =>
    obtain ⟨a, b⟩ := p
    by_cases hp : a = k
    · simp [Assoc.keys, hp.symm]
    · simp only [Assoc.get, if_neg hp] at h
      simp only [Assoc.keys, List.map_cons, List.mem_cons]
      exact Or.inr (ih h)

theorem Assoc.mem_keys_insert_iff {α β : Type} [DecidableEq α]
    (m : Assoc α β) (k k' : α) (v : β) :
    k' ∈ (m.insert k v).keys ↔ k' = k ∨ k' ∈ m.keys := by
  induction m with
  | nil => simp [Assoc.insert, Assoc.keys]
  | cons p rest ih =>
    obtain ⟨a, b⟩ := p
    by_cases ha : a = k
    · subst ha
      have hins : (Assoc.insert ((a, b) :: rest) a v) = (a, v) :: rest := by
        simp [Assoc.insert]
      rw [hins]
      simp only [Assoc.keys, List.map_cons, List.mem_cons]
      tauto
    · simp only [Assoc.insert, if_neg ha, Assoc.keys, List.map_cons,
        List.mem_cons]
      simp only [Assoc.keys] at ih
      rw [ih]
      tauto

/-! ### `optTraverse` lemmas -/
theorem optTraverse_eq_none_iff {α β : Type} (f : α → Option β)
    (l : List α) : optTraverse f l = none ↔ ∃ x ∈ l, f x = none := by
  induction l with
  | nil => simp [optTraverse]
  | cons x rest ih =>
    simp only [optTraverse]
    cases hfx : f x with
    | none =>
      refine ⟨fun _ => ⟨x, List.mem_cons_self x rest, hfx⟩, fun _ => rfl⟩
    | some y =>
      cases hr : optTraverse f rest with
      | none =>
        refine ⟨fun _ => ?_, fun _ => rfl⟩
        rcases ih.mp hr with ⟨z, hz, hfz⟩
        exact ⟨z, List.mem_cons_of_mem _ hz, hfz⟩
      | some ys =>
        constructor
        · intro h; cases h
        · rintro ⟨z, hz, hfz⟩
          rcases List.mem_cons.mp hz with hz | hz
          · rw [hz, hfx] at hfz; cases hfz
          · have h := ih.mpr ⟨z, hz, hfz⟩
            rw [h] at hr; cases hr

theorem optTraverse_eq_some_map {α β : Type} (f : α → Option β)
    (g : α → β) (l : List α) (h : ∀ x ∈ l, f x = some (g x)) :
    optTraverse f l = some (l.map g) := by
  induction l with
  | nil => rfl
  | cons x rest ih =>
    have hx := h x (List.mem_cons_self x rest)
    have hr := ih (fun z hz => h z (List.mem_cons_of_mem _ hz))
    simp [optTraverse, hx, hr]

theorem optTraverse_map_fst {α β : Type} (f : α → Option (α × β))
    (hf : ∀ x p, f x = some p → p.1 = x) (l : List α) (res : List (α × β))
    (h : optTraverse f l = some res) : res.map Prod.fst = l := by
  induction l generalizing res with
  | nil => cases h; rfl
  | cons x rest ih =>
    simp only [optTraverse] at h
    cases hfx : f x with
    | none => rw [hfx] at h; cases h
    | some y =>
      rw [hfx] at h
      cases hr : optTraverse f rest with
      | none => rw [hr] at h; cases h
      | some ys =>
        rw [hr] at h
        cases h
        simp [hf x y hfx, ih ys hr]

/-! ### Lemmas about `HugoConfig::new` -/
theorem mem_keys_mountDirsFrom (root : RPath) (mounts : List HugoMountDTO)
    (acc : Assoc String RPath) (k : String) :
    k ∈ (mountDirsFrom root acc mounts).keys ↔
      (∃ m ∈ mounts, m.lang = some k) ∨ k ∈ acc.keys := by
  induction mounts generalizing acc with
  | nil => simp [mountDirsFrom]
  | cons mount rest ih =>
    cases hm : mount.lang with
    | none =>
      simp only [mountDirsFrom, hm]
      rw [ih]
      simp only [List.mem_cons]
      constructor
      · rintro (⟨m, hmem, hl⟩ | hacc)
        · exact Or.inl ⟨m, Or.inr hmem, hl⟩
        · exact Or.inr hacc
      · rintro (⟨m, hmem | hmem, hl⟩ | hacc)
        · rw [hmem, hm] at hl; cases hl
        · exact Or.inl ⟨m, hmem, hl⟩
        · exact Or.inr hacc
    | some l =>
      simp only [mountDirsFrom, hm]
      rw [ih, Assoc.mem_keys_insert_iff]
      simp only [List.mem_cons]
      constructor
      · rintro (⟨m, hmem, hl⟩ | hkl | hacc)
        · exact Or.inl ⟨m, Or.inr hmem, hl⟩
        · exact Or.inl ⟨mount, Or.inl rfl, by rw [hm, hkl]⟩
        · exact Or.inr hacc
      · rintro (⟨m, hmem | hmem, hl⟩ | hacc)
        · rw [hmem, hm] at hl
          exact Or.inr (Or.inl (Option.some.inj hl).symm)
        · exact Or.inl ⟨m, hmem, hl⟩
        · exact Or.inr (Or.inr hacc)

theorem languageConfigPair_fst (config : HugoConfigDTO)
    (content_dirs : Assoc String RPath) (k : String)
    (p : String × HugoLanguageConfig)
    (h : languageConfigPair config content_dirs k = some p) : p.1 = k := by
  unfold languageConfigPair at h
  cases hl : Assoc.get config.languages k with
  | none => rw [hl] at h; cases h
  | some lc =>
    rw [hl] at h
    cases hd : Assoc.get content_dirs k with
    | none => rw [hd] at h; cases h
    | some cd => rw [hd] at h; cases h; rfl

/-- C10: `HugoConfig::new` panics (returns `none` in this model) exactly
when some mount carries a `lang` identifier absent from the `languages`
map; when every mounted language identifier appears in `languages`, it
returns normally. -/
theorem hugoConfig_new_panic_iff (dto : HugoConfigDTO) (root : RPath) :
    HugoConfig.new dto root = none ↔
      ∃ m ∈ dto.module.mounts, ∃ l, m.lang = some l ∧
        Assoc.get dto.languages l = none := by
  unfold HugoConfig.new
  rw [Option.map_eq_none', optTraverse_eq_none_iff]
  constructor
  · rintro ⟨k, hk, hFk⟩
    have hsome := Assoc.get_isSome_of_mem_keys
      (mountDirsFrom root [] dto.module.mounts) k hk
    unfold languageConfigPair at hFk
    cases hl : Assoc.get dto.languages k with
    | none =>
      rcases (mem_keys_mountDirsFrom root dto.module.mounts [] k).mp hk with
        ⟨m, hm, hlang⟩ | habs
      · exact ⟨m, hm, k, hlang, hl⟩
      · simp [Assoc.keys] at habs
    | some lc =>
      rw [hl] at hFk
      cases hd : Assoc.get (mountDirsFrom root [] dto.module.mounts) k with
      | none => rw [hd] at hsome; cases hsome
      | some cd => rw [hd] at hFk; cases hFk
  · rintro ⟨m, hm, l, hlang, hl⟩
    refine ⟨l, (mem_keys_mountDirsFrom root dto.module.mounts [] l).mpr
      (Or.inl ⟨m, hm, hlang⟩), ?_⟩
    unfold languageConfigPair
    rw [hl]

/-- C6 counterexample: with `fr` in the `languages` map but no `fr` mount,
the loader does not fail — it returns normally with a language mapping that
silently omits `fr`. -/
theorem c6_counterexample :
    Assoc.get dtoOnlyEnMount.languages "fr" = some ⟨"French"⟩ ∧
    HugoConfig.new dtoOnlyEnMount siteRoot = some cfgOnlyEn ∧
    Assoc.get cfgOnlyEn.language_configs "fr" = none := by decide

/-- C6 amended: a language of the `languages` map for which no mount
carries that identifier is not an error: whenever `HugoConfig::new`
returns, its language mapping simply lacks that language. -/
theorem c6_amended (dto : HugoConfigDTO) (root : RPath) (cfg : HugoConfig)
    (l : String)
    (hnew : HugoConfig.new dto root = some cfg)
    (hmount : ∀ m ∈ dto.module.mounts, m.lang ≠ some l) :
    Assoc.get cfg.language_configs l = none := by
  apply Assoc.get_eq_none_of_not_mem_keys
  unfold HugoConfig.new at hnew
  cases htr : optTraverse
      (languageConfigPair dto (mountDirsFrom root [] dto.module.mounts))
      (mountDirsFrom root [] dto.module.mounts).keys with
  | none => rw [htr] at hnew; cases hnew
  | some lcs =>
    rw [htr] at hnew
    cases hnew
    have hfst := optTraverse_map_fst _
      (languageConfigPair_fst dto (mountDirsFrom root [] dto.module.mounts))
      _ lcs htr
    intro hmem
    rw [show Assoc.keys lcs = lcs.map Prod.fst from rfl, hfst] at hmem
    rcases (mem_keys_mountDirsFrom root dto.module.mounts [] l).mp hmem with
      ⟨m, hm, hlang⟩ | habs
    · exact hmount m hm hlang
    · simp [Assoc.keys] at habs

/-- C6 witness: the amended statement evaluated on `dtoOnlyEnMount`. -/
theorem c6_amended_witness :
    HugoConfig.new dtoOnlyEnMount siteRoot = some cfgOnlyEn ∧
    Assoc.get cfgOnlyEn.language_configs "fr" = none :=
  ⟨by decide, c6_amended dtoOnlyEnMount siteRoot cfgOnlyEn "fr" (by decide)
    (by decide)⟩

/-- C9: the draft lister is not total. Whenever every non-header line of
the `hugo list drafts` stdout contains a comma, `draft_files` returns the
first CSV column of every such line resolved against the site root; and on
a stdout whose non-header line has no comma it panics (`none`) instead of
returning an error. -/
theorem draft_files_characterization :
    (∀ (root : RPath) (stdout : String),
      (∀ l ∈ (rustLines stdout).drop 1, (splitOnceFirst l).isSome) →
      draft_files root stdout =
        some (((rustLines stdout).drop 1).map
          (fun l => root.join (strToPath ((splitOnceFirst l).getD ""))))) ∧
    draft_files siteRoot "path,slug,title\ndrafts/a.md" = none := by
  constructor
  · intro root stdout h
    unfold draft_files
    apply optTraverse_eq_some_map
    intro l hl
    cases hs : splitOnceFirst l with
    | none =>
      have hx := h l hl
      rw [hs] at hx
      cases hx
    | some c => simp [hs]
  · decide

/-- C9 witness: the first part of `draft_files_characterization` evaluated
on a concrete two-draft CSV listing. -/
theorem draft_files_characterization_witness :
    draft_files siteRoot
        "path,slug,title\ncontent/en/a.md,a\ncontent/fr/b.md,b" =
      some [strToPath "site/content/en/a.md",
            strToPath "site/content/fr/b.md"] :=
  (draft_files_characterization.1 siteRoot
    "path,slug,title\ncontent/en/a.md,a\ncontent/fr/b.md,b"
    (by decide)).trans (by decide)

/-! ### TranslationIndex insertion lemmas -/
theorem indexGet_insertTranslation_self (idx : TranslationIndex)
    (m : FileMetadata) :
    indexGet (insertTranslation idx m) m.translation_key
      m.language_identifier = some m := by
  unfold insertTranslation indexGet
  rw [Assoc.get_insert_self]
  dsimp only
  rw [Assoc.get_insert_self]

theorem indexGet_insertTranslation_ne (idx : TranslationIndex)
    (m : FileMetadata) (key lang : String)
    (h : key ≠ m.translation_key ∨ lang ≠ m.language_identifier) :
    indexGet (insertTranslation idx m) key lang = indexGet idx key lang := by
  unfold insertTranslation indexGet
  by_cases hk : key = m.translation_key
  · subst hk
    rw [Assoc.get_insert_self]
    dsimp only
    rcases h with h | h
    · exact absurd rfl h
    · rw [Assoc.get_insert_ne _ _ _ _ (fun hh => h hh.symm)]
      cases hg : Assoc.get idx m.translation_key with
      | none => rfl
      | some cell => rfl
  · rw [Assoc.get_insert_ne _ _ _ _ (fun hh => hk hh.symm)]

theorem getLast?_cons_isSome {α : Type} (a : α) (l : List α) :
    ((a :: l).getLast?).isSome := by
  induction l generalizing a with
  | nil => rfl
  | cons b l ih => rw [List.getLast?_cons_cons]; exact ih b

/-- C2 amended: the TranslationIndex silently keeps only the later
insertion. After the insertion loop, a (translation key, language) cell
holds the last inserted document with that key and language — earlier
duplicates are replaced, none is rejected. -/
theorem index_last_write_wins (ms : List FileMetadata)
    (idx : TranslationIndex) (key lang : String) :
    indexGet (ms.foldl insertTranslation idx) key lang =
      ((ms.filter (fun m => decide (m.translation_key = key ∧
        m.language_identifier = lang))).getLast?).elim
        (indexGet idx key lang) some := by
  induction ms generalizing idx with
  | nil => rfl
  | cons m rest ih =>
    rw [List.foldl_cons, ih]
    by_cases hm : m.translation_key = key ∧ m.language_identifier = lang
    · have hp : (fun m' => decide (m'.translation_key = key ∧
          m'.language_identifier = lang)) m = true := decide_eq_true hm
      rw [List.filter_cons, if_pos hp]
      cases hfr : rest.filter (fun m' => decide (m'.translation_key = key ∧
          m'.language_identifier = lang)) with
      | nil =>
        obtain ⟨h1, h2⟩ := hm
        subst h1
        subst h2
        rw [indexGet_insertTranslation_self]
        rfl
      | cons a l =>
        rw [List.getLast?_cons_cons]
        cases hx : (a :: l).getLast? with
        | none =>
          have hs := getLast?_cons_isSome a l
          rw [hx] at hs
          cases hs
        | some x => rfl
    · have hp : (fun m' => decide (m'.translation_key = key ∧
          m'.language_identifier = lang)) m = false := decide_eq_false hm
      rw [List.filter_cons, if_neg (by simp [hp])]
      rw [indexGet_insertTranslation_ne idx m key lang ?hne]
      case hne =>
        rcases not_and_or.mp hm with h | h
        · exact Or.inl (fun hh => h hh.symm)
        · exact Or.inr (fun hh => h hh.symm)

/-- C2 counterexample: two extracted documents share the cell
(`alpha`, `en`); the index silently keeps only the later insertion (the
`b.md` metadata) and the run completes without rejecting the duplicate. -/
theorem c2_counterexample :
    HugoConfig.new dtoEnFr siteRoot = some cfgEnFr ∧
    indexGet (collectState inputDupKey.fs lineKeyDecode []
        cfgEnFr).all_translations "alpha" "en" = some metaEnBAlpha ∧
    metaEnBAlpha.path = enB ∧
    run dryRunTranslator inputDupKey =
      some (.ok [dryWriteAlphaFr, dryWriteAlphaFr]) := by decide

theorem findFencesAux_some_eq (ls : List String) (idx s : Nat) :
    findFencesAux ls idx (some s) =
      match fenceIndicesFrom ls idx with
      | b :: _ => some (s, b)
      | [] => none := by
  induction ls generalizing idx with
  | nil => rfl
  | cons l rest ih =>
    by_cases h : trimStr l = "---"
    · simp [findFencesAux, fenceIndicesFrom, h]
    · simp only [findFencesAux, fenceIndicesFrom, if_neg h]
      exact ih (idx + 1)

theorem findFencesAux_none_eq (ls : List String) (idx : Nat) :
    findFencesAux ls idx none =
      match fenceIndicesFrom ls idx with
      | a :: b :: _ => some (a, b)
      | _ => none := by
  induction ls generalizing idx with
  | nil => rfl
  | cons l rest ih =>
    by_cases h : trimStr l = "---"
    · simp only [findFencesAux, fenceIndicesFrom, if_pos h]
      rw [findFencesAux_some_eq]
      cases fenceIndicesFrom rest (idx + 1) with
      | nil => rfl
      | cons b bs => rfl
    · simp only [findFencesAux, fenceIndicesFrom, if_neg h]
      exact ih (idx + 1)

/-- C7: for every input file the extractor accepts, the stored translation
key equals the value of the `translationKey` field of the YAML document
formed by the lines strictly between the first two lines whose trimmed
content is exactly `---`. -/
theorem tryFrom_key_roundtrip (fs : FS)
    (decode : String → Option FrontMatter) (path : RPath) (lang : String)
    (m : FileMetadata)
    (h : FileMetadata.tryFrom fs decode path lang = .ok m) :
    specExtractKey fs decode path = some m.translation_key := by
  unfold FileMetadata.tryFrom at h
  cases hstem : path.fileStemQ with
  | none => rw [hstem] at h; cases h
  | some base_name =>
    rw [hstem] at h
    dsimp only at h
    cases hread : readFile fs path with
    | none => rw [hread] at h; cases h
    | some content =>
      rw [hread] at h
      dsimp only at h
      cases hfen : findFencesAux (splitChar content '\n') 0 none with
      | none => rw [hfen] at h; cases h
      | some se =>
        obtain ⟨start, stop⟩ := se
        rw [hfen] at h
        dsimp only at h
        rw [findFencesAux_none_eq] at hfen
        cases hidx : fenceIndicesFrom (splitChar content '\n') 0 with
        | nil => rw [hidx] at hfen; cases hfen
        | cons a t =>
          cases t with
          | nil => rw [hidx] at hfen; cases hfen
          | cons b t' =>
            rw [hidx] at hfen
            injection hfen with hab
            injection hab with ha hb
            rw [ha, hb] at hidx
            cases hdec : decode (joinNL
                (((splitChar content '\n').drop (start + 1)).take
                  (stop - (start + 1)))) with
            | none => rw [hdec] at h; cases h
            | some fm =>
              rw [hdec] at h
              cases h
              unfold specExtractKey specFrontMatterYaml
              rw [hread]
              dsimp only
              rw [hidx]
              dsimp only
              rw [hdec]
              rfl

/-- C7 witness: the round-trip property evaluated on scenario 1's file. -/
theorem tryFrom_key_roundtrip_witness :
    FileMetadata.tryFrom [(enA, mdFile "alpha" "body")] lineKeyDecode enA
        "en" = .ok metaEnA ∧
    specExtractKey [(enA, mdFile "alpha" "body")] lineKeyDecode enA =
      some "alpha" :=
  ⟨by decide,
    (tryFrom_key_roundtrip [(enA, mdFile "alpha" "body")] lineKeyDecode enA
      "en" metaEnA (by decide)).trans (by decide)⟩

/-! ### C8: dry-run behaviour -/
theorem translatePairs_dryRun (cfg : HugoConfig) (m : FileMetadata)
    (cfp : RPath) (oc : String) (ts : List String) (ws : List FileWrite)
    (h : translatePairs cfg dryRunTranslator m cfp oc ts = some (.ok ws)) :
    ∀ w ∈ ws, w.dest = devNull ∧ w.contents = "DRY_RUN" := by
  induction ts generalizing ws with
  | nil =>
    cases h
    intro w hw
    cases hw
  | cons t rest ih =>
    unfold translatePairs at h
    cases hlc : Assoc.get cfg.language_configs t with
    | none => rw [hlc] at h; cases h
    | some tlc =>
      rw [hlc] at h
      have h' : ((match translatePairs cfg dryRunTranslator m cfp oc rest with
        | none => none
        | some (.error e) => some (.error e)
        | some (.ok ws') =>
          some (.ok
            ({ translation_key := m.translation_key,
               from_lang := m.language_identifier,
               to_lang := t, dest := devNull,
               contents := "DRY_RUN" } :: ws'))) :
          Option (Except RunError (List FileWrite))) = some (.ok ws) := h
      cases hrec : translatePairs cfg dryRunTranslator m cfp oc rest with
      | none => rw [hrec] at h'; cases h'
      | some r =>
        cases r with
        | error e => rw [hrec] at h'; cases h'
        | ok ws' =>
          rw [hrec] at h'
          cases h'
          intro w hw
          rcases List.mem_cons.mp hw with hw | hw
          · subst hw; exact ⟨rfl, rfl⟩
          · exact ih ws' hrec w hw

theorem processMetadata_dryRun (fs : FS) (cfg : HugoConfig)
    (idx : TranslationIndex) (m : FileMetadata) (ws : List FileWrite)
    (h : processMetadata fs cfg dryRunTranslator idx m = some (.ok ws)) :
    ∀ w ∈ ws, w.dest = devNull ∧ w.contents = "DRY_RUN" := by
  unfold processMetadata at h
  cases hflc : Assoc.get cfg.language_configs m.language_identifier with
  | none => rw [hflc] at h; cases h
  | some flc =>
    rw [hflc] at h
    dsimp only at h
    cases hrd : readFile fs m.path with
    | none => rw [hrd] at h; cases h
    | some oc =>
      rw [hrd] at h
      dsimp only at h
      cases hrel : m.path.relativeTo flc.content_dir with
      | none => rw [hrel] at h; cases h
      | some cfp =>
        rw [hrel] at h
        dsimp only at h
        exact translatePairs_dryRun cfg m cfp oc _ ws h

theorem translateAll_dryRun (fs : FS) (cfg : HugoConfig)
    (idx : TranslationIndex) (ms : List FileMetadata) (ws : List FileWrite)
    (h : translateAll fs cfg dryRunTranslator idx ms = some (.ok ws)) :
    ∀ w ∈ ws, w.dest = devNull ∧ w.contents = "DRY_RUN" := by
  induction ms generalizing ws with
  | nil =>
    cases h
    intro w hw
    cases hw
  | cons m rest ih =>
    unfold translateAll at h
    cases hpm : processMetadata fs cfg dryRunTranslator idx m with
    | none => rw [hpm] at h; cases h
    | some r =>
      cases r with
      | error e => rw [hpm] at h; cases h
      | ok ws1 =>
        rw [hpm] at h
        dsimp only at h
        cases hta : translateAll fs cfg dryRunTranslator idx rest with
        | none => rw [hta] at h; cases h
        | some r2 =>
          cases r2 with
          | error e => rw [hta] at h; cases h
          | ok ws2 =>
            rw [hta] at h
            cases h
            intro w hw
            rcases List.mem_append.mp hw with hw | hw
            · exact processMetadata_dryRun fs cfg idx m ws1 hpm w hw
            · exact ih ws2 hta w hw

/-- C8: the dry-run translator returns the null-sink path for every path
call and the literal `DRY_RUN` for every content call (it is a pure
constant, so no I/O), and every write a completed dry run performs lands on
the null-sink path — in particular not below any relative (real) content
directory, since joining a content directory with the absolute null-sink
path yields the null-sink path itself. -/
theorem dry_run_characterization :
    (∀ (p : RPath) (f t : String),
      dryRunTranslator.translatePath p f t = .ok devNull) ∧
    (∀ (s f t hsh : String),
      dryRunTranslator.translateContent s f t hsh = .ok "DRY_RUN") ∧
    (∀ (inp : RunInput) (ws : List FileWrite),
      run dryRunTranslator inp = some (.ok ws) →
      ∀ w ∈ ws, w.dest = devNull ∧ w.contents = "DRY_RUN" ∧
        ∀ dir : RPath, dir.absolute = false → w.dest.relativeTo dir = none) := by
  refine ⟨fun _ _ _ => rfl, fun _ _ _ _ => rfl, ?_⟩
  intro inp ws h
  unfold run at h
  cases hcfg : HugoConfig.new inp.dto inp.root with
  | none => rw [hcfg] at h; cases h
  | some cfg =>
    rw [hcfg] at h
    dsimp only at h
    by_cases hlen : cfg.language_configs.length < 2
    · rw [if_pos hlen] at h; cases h
    · rw [if_neg hlen] at h
      intro w hw
      obtain ⟨hd, hc⟩ := translateAll_dryRun _ _ _ _ ws h w hw
      refine ⟨hd, hc, ?_⟩
      intro dir hdir
      rw [hd]
      simp [RPath.relativeTo, devNull, hdir]

/-- C8 witness: the dry-run property evaluated on scenario 1 (single
missing `fr` target): the only write lands on the null sink and inside no
content directory. -/
theorem dry_run_characterization_witness :
    run dryRunTranslator inputScenario1 = some (.ok [dryWriteAlphaFr]) ∧
    dryWriteAlphaFr.dest = devNull ∧
    dryWriteAlphaFr.contents = "DRY_RUN" ∧
    dryWriteAlphaFr.dest.relativeTo (strToPath "site/content/en") = none ∧
    dryWriteAlphaFr.dest.relativeTo (strToPath "site/content/fr") = none := by
  have hrun : run dryRunTranslator inputScenario1 =
      some (.ok [dryWriteAlphaFr]) := by decide
  have hw := dry_run_characterization.2.2 inputScenario1 [dryWriteAlphaFr]
    hrun dryWriteAlphaFr (List.mem_singleton_self _)
  exact ⟨hrun, hw.1, hw.2.1, hw.2.2 _ (by decide), hw.2.2 _ (by decide)⟩

/-- C1 counterexample: the completed run writes to `site/content/fr/a.md`,
a path occupied by a cell (the `beta` document) of the TranslationIndex at
the start of the run — the engine overwrites an existing translation. -/
theorem c1_counterexample :
    run idTranslator inputCrossKeys =
      some (.ok
        [{ translation_key := "alpha", from_lang := "en", to_lang := "fr",
           dest := frA, contents := "X" },
         { translation_key := "beta", from_lang := "fr", to_lang := "en",
           dest := enA, contents := "X" }]) ∧
    HugoConfig.new dtoEnFr siteRoot = some cfgEnFr ∧
    frA ∈ cellPaths (collectState inputCrossKeys.fs lineKeyDecode []
      cfgEnFr).all_translations := by decide

theorem translatePairs_writes (cfg : HugoConfig) (tr : MTranslator)
    (m : FileMetadata) (cfp : RPath) (oc : String) (ts : List String)
    (ws : List FileWrite)
    (h : translatePairs cfg tr m cfp oc ts = some (.ok ws)) :
    ∀ w ∈ ws, w.translation_key = m.translation_key ∧ w.to_lang ∈ ts := by
  induction ts generalizing ws with
  | nil =>
    cases h
    intro w hw
    cases hw
  | cons t rest ih =>
    unfold translatePairs at h
    cases hlc : Assoc.get cfg.language_configs t with
    | none => rw [hlc] at h; cases h
    | some tlc =>
      rw [hlc] at h
      dsimp only at h
      cases htp : tr.translatePath cfp m.language_identifier t with
      | error e => rw [htp] at h; cases h
      | ok trel =>
        rw [htp] at h
        dsimp only at h
        cases htc : tr.translateContent oc m.language_identifier t "hash" with
        | error e => rw [htc] at h; cases h
        | ok body =>
          rw [htc] at h
          dsimp only at h
          cases hpar : (tlc.content_dir.join trel).parentQ with
          | none => rw [hpar] at h; cases h
          | some par =>
            rw [hpar] at h
            dsimp only at h
            cases hrec : translatePairs cfg tr m cfp oc rest with
            | none => rw [hrec] at h; cases h
            | some r =>
              cases r with
              | error e => rw [hrec] at h; cases h
              | ok ws' =>
                rw [hrec] at h
                cases h
                intro w hw
                rcases List.mem_cons.mp hw with hw | hw
                · subst hw
                  exact ⟨rfl, List.mem_cons_self t rest⟩
                · obtain ⟨h1, h2⟩ := ih ws' hrec w hw
                  exact ⟨h1, List.mem_cons_of_mem t h2⟩

theorem targetLanguages_missing (cfg : HugoConfig) (idx : TranslationIndex)
    (m : FileMetadata) (t : String) (h : t ∈ targetLanguages cfg idx m) :
    indexGet idx m.translation_key t = none := by
  unfold targetLanguages at h
  have hmem := List.mem_filter.mp h
  have hnot : t ∉ Assoc.keys ((idx.get m.translation_key).getD []) := by
    intro hcon
    have := hmem.2
    rw [decide_eq_true hcon] at this
    cases this
  have hget := Assoc.get_eq_none_of_not_mem_keys _ t hnot
  unfold indexGet
  cases hg : Assoc.get idx m.translation_key with
  | none => rfl
  | some cell =>
    rw [hg] at hget
    exact hget

theorem processMetadata_writes (fs : FS) (cfg : HugoConfig)
    (tr : MTranslator) (idx : TranslationIndex) (m : FileMetadata)
    (ws : List FileWrite)
    (h : processMetadata fs cfg tr idx m = some (.ok ws)) :
    ∀ w ∈ ws, w.translation_key = m.translation_key ∧
      w.to_lang ∈ targetLanguages cfg idx m := by
  unfold processMetadata at h
  cases hflc : Assoc.get cfg.language_configs m.language_identifier with
  | none => rw [hflc] at h; cases h
  | some flc =>
    rw [hflc] at h
    dsimp only at h
    cases hrd : readFile fs m.path with
    | none => rw [hrd] at h; cases h
    | some oc =>
      rw [hrd] at h
      dsimp only at h
      cases hrel : m.path.relativeTo flc.content_dir with
      | none => rw [hrel] at h; cases h
      | some cfp =>
        rw [hrel] at h
        dsimp only at h
        exact translatePairs_writes cfg tr m cfp oc _ ws h

theorem translateAll_writes (fs : FS) (cfg : HugoConfig) (tr : MTranslator)
    (idx : TranslationIndex) (ms : List FileMetadata) (ws : List FileWrite)
    (h : translateAll fs cfg tr idx ms = some (.ok ws)) :
    ∀ w ∈ ws, ∃ m ∈ ms, w.translation_key = m.translation_key ∧
      w.to_lang ∈ targetLanguages cfg idx m := by
  induction ms generalizing ws with
  | nil =>
    cases h
    intro w hw
    cases hw
  | cons m rest ih =>
    unfold translateAll at h
    cases hpm : processMetadata fs cfg tr idx m with
    | none => rw [hpm] at h; cases h
    | some r =>
      cases r with
      | error e => rw [hpm] at h; cases h
      | ok ws1 =>
        rw [hpm] at h
        dsimp only at h
        cases hta : translateAll fs cfg tr idx rest with
        | none => rw [hta] at h; cases h
        | some r2 =>
          cases r2 with
          | error e => rw [hta] at h; cases h
          | ok ws2 =>
            rw [hta] at h
            cases h
            intro w hw
            rcases List.mem_append.mp hw with hw | hw
            · obtain ⟨h1, h2⟩ := processMetadata_writes fs cfg tr idx m ws1
                hpm w hw
              exact ⟨m, List.mem_cons_self m rest, h1, h2⟩
            · obtain ⟨m', hm', h1, h2⟩ := ih ws2 hta w hw
              exact ⟨m', List.mem_cons_of_mem m hm', h1, h2⟩

/-- C1 amended: every file write of a completed run is the creation of a
missing (translation key, language) cell — at the start of the run the
TranslationIndex had no document for the write's key and target language.
(The destination path itself is derived by the translator and may still
coincide with the path of an existing document of a different key, as the
counterexample shows.) -/
theorem run_writes_only_missing_cells (tr : MTranslator) (inp : RunInput)
    (cfg : HugoConfig) (ws : List FileWrite)
    (hcfg : HugoConfig.new inp.dto inp.root = some cfg)
    (h : run tr inp = some (.ok ws)) :
    ∀ w ∈ ws,
      indexGet (collectState inp.fs inp.decode
          (if inp.draftsFlag then [] else inp.draftList)
          cfg).all_translations w.translation_key w.to_lang = none := by
  unfold run at h
  rw [hcfg] at h
  dsimp only at h
  by_cases hlen : cfg.language_configs.length < 2
  · rw [if_pos hlen] at h; cases h
  · rw [if_neg hlen] at h
    intro w hw
    obtain ⟨m, _hm, hkey, htl⟩ := translateAll_writes _ _ _ _ _ ws h w hw
    rw [hkey]
    exact targetLanguages_missing cfg _ m w.to_lang htl

/-- C1 witness: the amended statement evaluated on scenario 1. -/
theorem run_writes_only_missing_cells_witness :
    run dryRunTranslator inputScenario1 = some (.ok [dryWriteAlphaFr]) ∧
    indexGet (collectState inputScenario1.fs inputScenario1.decode
        (if inputScenario1.draftsFlag then [] else inputScenario1.draftList)
        cfgEnFr).all_translations "alpha" "fr" = none := by
  have hrun : run dryRunTranslator inputScenario1 =
      some (.ok [dryWriteAlphaFr]) := by decide
  refine ⟨hrun, ?_⟩
  exact run_writes_only_missing_cells dryRunTranslator inputScenario1
    cfgEnFr [dryWriteAlphaFr] (by decide) hrun dryWriteAlphaFr
    (List.mem_singleton_self _)

/-- C3 counterexample: when the translator fails on the first
(source, target) pair — whether in the path call or in the content call —
the whole run aborts with that error; it does not drop the pair and
continue. The same input with a working translator shows a second pair of
work was pending. -/
theorem c3_counterexample :
    run failTranslator inputTwoSources =
      some (.error (.backend "boom")) ∧
    run contentFailTranslator inputTwoSources =
      some (.error (.backend "cboom")) ∧
    run idTranslator inputTwoSources =
      some (.ok
        [{ translation_key := "alpha", from_lang := "en", to_lang := "fr",
           dest := strToPath "site/content/fr/a.md", contents := "X" },
         { translation_key := "beta", from_lang := "en", to_lang := "fr",
           dest := strToPath "site/content/fr/b.md",
           contents := "X" }]) := by decide

/-- C3 amended: a `translate_path` or `translate_content` error on a pair
is fatal for the whole run, not only for that pair: the error is propagated
by `?` in `main`, the run returns it, and the remaining sources (`post`)
are never processed. -/
theorem translate_error_aborts_run (tr : MTranslator) (inp : RunInput)
    (cfg : HugoConfig) (m : FileMetadata) (post : List FileMetadata)
    (t : String) (ts : List String) (e : String)
    (flc tlc : HugoLanguageConfig) (oc : String) (cfp : RPath)
    (hcfg : HugoConfig.new inp.dto inp.root = some cfg)
    (hlen : ¬ cfg.language_configs.length < 2)
    (hms : (collectState inp.fs inp.decode
        (if inp.draftsFlag then [] else inp.draftList) cfg).files_metadata
        = m :: post)
    (htgt : targetLanguages cfg (collectState inp.fs inp.decode
        (if inp.draftsFlag then [] else inp.draftList) cfg).all_translations
        m = t :: ts)
    (hflc : Assoc.get cfg.language_configs m.language_identifier = some flc)
    (hoc : readFile inp.fs m.path = some oc)
    (hcfp : m.path.relativeTo flc.content_dir = some cfp)
    (htlc : Assoc.get cfg.language_configs t = some tlc)
    (herr : tr.translatePath cfp m.language_identifier t = .error e ∨
      ∃ trel, tr.translatePath cfp m.language_identifier t = .ok trel ∧
        tr.translateContent oc m.language_identifier t "hash" = .error e) :
    run tr inp = some (.error (.backend e)) := by
  have hpm : processMetadata inp.fs cfg tr
      (collectState inp.fs inp.decode
        (if inp.draftsFlag then [] else inp.draftList) cfg).all_translations
      m = some (.error (.backend e)) := by
    unfold processMetadata
    rw [hflc]
    dsimp only
    rw [hoc]
    dsimp only
    rw [hcfp]
    dsimp only
    rw [htgt]
    unfold translatePairs
    rw [htlc]
    dsimp only
    rcases herr with herr | ⟨trel, hok, hcerr⟩
    · rw [herr]
    · rw [hok]
      dsimp only
      rw [hcerr]
  unfold run
  rw [hcfg]
  dsimp only
  rw [if_neg hlen]
  rw [hms]
  unfold translateAll
  rw [hpm]

/-- C3 witness: the amended statement evaluated on the two-pair scenario,
once with a translator failing in `translate_path` and once with a
translator failing in `translate_content`. -/
theorem translate_error_aborts_run_witness :
    run failTranslator inputTwoSources =
      some (.error (.backend "boom")) ∧
    run contentFailTranslator inputTwoSources =
      some (.error (.backend "cboom")) :=
  ⟨translate_error_aborts_run failTranslator inputTwoSources cfgEnFr
    metaEnA [metaEnBBeta] "fr" [] "boom"
    { content_dir := strToPath "site/content/en", language_name := "English" }
    { content_dir := strToPath "site/content/fr", language_name := "French" }
    (mdFile "alpha" "a") ⟨false, ["a.md"]⟩
    (by decide) (by decide) (by decide) (by decide) (by decide) (by decide)
    (by decide) (by decide) (Or.inl (by decide)),
   translate_error_aborts_run contentFailTranslator inputTwoSources cfgEnFr
    metaEnA [metaEnBBeta] "fr" [] "cboom"
    { content_dir := strToPath "site/content/en", language_name := "English" }
    { content_dir := strToPath "site/content/fr", language_name := "French" }
    (mdFile "alpha" "a") ⟨false, ["a.md"]⟩
    (by decide) (by decide) (by decide) (by decide) (by decide) (by decide)
    (by decide) (by decide)
    (Or.inr ⟨⟨false, ["a.md"]⟩, by decide, by decide⟩)⟩

/-! ### C5: draft exclusion -/
theorem foldl_invariant {α σ : Type} (P : σ → Prop) (f : σ → α → σ)
    (l : List α) (init : σ) (h0 : P init)
    (hstep : ∀ s a, P s → P (f s a)) : P (l.foldl f init) := by
  induction l generalizing init with
  | nil => exact h0
  | cons a rest ih => exact ih (f init a) (hstep init a h0)

theorem indexGet_insertTranslation_isSome_mono (idx : TranslationIndex)
    (m' : FileMetadata) (k l : String)
    (h : (indexGet idx k l).isSome) :
    (indexGet (insertTranslation idx m') k l).isSome := by
  by_cases hk : k = m'.translation_key ∧ l = m'.language_identifier
  · obtain ⟨h1, h2⟩ := hk
    subst h1
    subst h2
    rw [indexGet_insertTranslation_self]
    rfl
  · rw [indexGet_insertTranslation_ne idx m' k l ?hne]
    · exact h
    case hne =>
      rcases not_and_or.mp hk with hh | hh
      · exact Or.inl hh
      · exact Or.inr hh

theorem indexGet_foldl_isSome_mono (ms : List FileMetadata)
    (idx : TranslationIndex) (k l : String)
    (h : (indexGet idx k l).isSome) :
    (indexGet (ms.foldl insertTranslation idx) k l).isSome := by
  induction ms generalizing idx with
  | nil => exact h
  | cons a rest ih =>
    rw [List.foldl_cons]
    exact ih (insertTranslation idx a)
      (indexGet_insertTranslation_isSome_mono idx a k l h)

theorem indexGet_foldl_mem (ms : List FileMetadata)
    (idx : TranslationIndex) (m : FileMetadata) (hm : m ∈ ms) :
    (indexGet (ms.foldl insertTranslation idx) m.translation_key
      m.language_identifier).isSome := by
  induction ms generalizing idx with
  | nil => cases hm
  | cons a rest ih =>
    rw [List.foldl_cons]
    rcases List.mem_cons.mp hm with hm | hm
    · subst hm
      apply indexGet_foldl_isSome_mono
      rw [indexGet_insertTranslation_self]
      rfl
    · exact ih (insertTranslation idx a) hm

theorem processLanguage_index_mono (fs : FS)
    (decode : String → Option FrontMatter) (drafts : List RPath)
    (st : RunState) (lang : String) (lc : HugoLanguageConfig)
    (k l : String) (h : (indexGet st.all_translations k l).isSome) :
    (indexGet (processLanguage fs decode drafts st lang lc).all_translations
      k l).isSome := by
  unfold processLanguage
  dsimp only
  exact indexGet_foldl_isSome_mono _ _ _ _ h

theorem collectFold_index_mono (fs : FS)
    (decode : String → Option FrontMatter) (drafts : List RPath)
    (ls : List (String × HugoLanguageConfig)) (st : RunState)
    (k l : String) (h : (indexGet st.all_translations k l).isSome) :
    (indexGet ((ls.foldl
      (fun st p => processLanguage fs decode drafts st p.1 p.2)
      st).all_translations) k l).isSome := by
  induction ls generalizing st with
  | nil => exact h
  | cons p rest ih =>
    rw [List.foldl_cons]
    exact ih _ (processLanguage_index_mono fs decode drafts st p.1 p.2 k l h)

theorem processLanguage_index_establish (fs : FS)
    (decode : String → Option FrontMatter) (drafts : List RPath)
    (st : RunState) (lang : String) (lc : HugoLanguageConfig)
    (p : RPath) (m : FileMetadata)
    (hp : p ∈ findMarkdownFiles fs lc.content_dir)
    (hm : FileMetadata.tryFrom fs decode p lang = .ok m) :
    (indexGet (processLanguage fs decode drafts st lang lc).all_translations
      m.translation_key m.language_identifier).isSome := by
  unfold processLanguage
  dsimp only
  apply indexGet_foldl_mem
  apply List.mem_filterMap.mpr
  exact ⟨p, hp, by rw [hm]; rfl⟩

theorem collect_files_not_draft (fs : FS)
    (decode : String → Option FrontMatter) (drafts : List RPath)
    (cfg : HugoConfig) :
    ∀ m' ∈ (collectState fs decode drafts cfg).files_metadata,
      m'.path ∉ drafts := by
  have hstep : ∀ (st : RunState) (p : String × HugoLanguageConfig),
      (∀ m' ∈ st.files_metadata, m'.path ∉ drafts) →
      ∀ m' ∈ (processLanguage fs decode drafts st p.1 p.2).files_metadata,
        m'.path ∉ drafts := by
    intro st p hP m' hm'
    unfold processLanguage at hm'
    dsimp only at hm'
    rcases List.mem_append.mp hm' with h | h
    · exact hP m' h
    · simpa using (List.mem_filter.mp h).2
  have h0 : ∀ m' ∈ (⟨[], []⟩ : RunState).files_metadata,
      m'.path ∉ drafts := by
    intro m' hm'
    cases hm'
  unfold collectState
  exact foldl_invariant
    (fun st => ∀ m' ∈ st.files_metadata, m'.path ∉ drafts)
    (fun st p => processLanguage fs decode drafts st p.1 p.2)
    cfg.language_configs ⟨[], []⟩ h0 hstep

/-- C5: a document whose path is in the draft set is never a translation
source (no collected source shares its path), yet its translation key still
counts as already present for its language: the cell is populated in the
TranslationIndex and the language is excluded from the target set of every
other source with the same key. -/
theorem draft_exclusion (fs : FS) (decode : String → Option FrontMatter)
    (drafts : List RPath) (cfg : HugoConfig) (lang : String)
    (lc : HugoLanguageConfig) (p : RPath) (m : FileMetadata)
    (hlc : (lang, lc) ∈ cfg.language_configs)
    (hp : p ∈ findMarkdownFiles fs lc.content_dir)
    (hm : FileMetadata.tryFrom fs decode p lang = .ok m)
    (hdraft : m.path ∈ drafts) :
    (∀ m' ∈ (collectState fs decode drafts cfg).files_metadata,
      m'.path ≠ m.path) ∧
    (indexGet (collectState fs decode drafts cfg).all_translations
      m.translation_key m.language_identifier).isSome ∧
    (∀ m' : FileMetadata, m'.translation_key = m.translation_key →
      m.language_identifier ∉ targetLanguages cfg
        (collectState fs decode drafts cfg).all_translations m') := by
  have hsome : (indexGet (collectState fs decode drafts cfg).all_translations
      m.translation_key m.language_identifier).isSome := by
    obtain ⟨l1, l2, hsplit⟩ := List.append_of_mem hlc
    unfold collectState
    rw [hsplit, List.foldl_append, List.foldl_cons]
    apply collectFold_index_mono
    exact processLanguage_index_establish fs decode drafts _ lang lc p m hp hm
  refine ⟨?_, hsome, ?_⟩
  · intro m' hm' heq
    exact collect_files_not_draft fs decode drafts cfg m' hm' (heq ▸ hdraft)
  · intro m' hkey hcon
    have := targetLanguages_missing cfg _ m' m.language_identifier hcon
    rw [hkey] at this
    rw [this] at hsome
    cases hsome

/-- C5 witness: draft exclusion evaluated on the concrete draft scenario
(the surviving `fr` source does not target `en`). -/
theorem draft_exclusion_witness :
    metaFrAAlpha.path ≠ metaEnA.path ∧
    (indexGet (collectState fsDraftScenario lineKeyDecode [enA]
      cfgEnFr).all_translations "alpha" "en").isSome ∧
    "en" ∉ targetLanguages cfgEnFr (collectState fsDraftScenario
      lineKeyDecode [enA] cfgEnFr).all_translations metaFrAAlpha := by
  have h := draft_exclusion fsDraftScenario lineKeyDecode [enA] cfgEnFr
    "en" enLC enA metaEnA (by decide) (by decide) (by decide) (by decide)
  exact ⟨h.1 metaFrAAlpha (by decide), h.2.1,
    h.2.2 metaFrAAlpha (by decide)⟩

theorem readFile_removeFile_ne (fs : FS) (p q : RPath) (h : q ≠ p) :
    readFile (removeFile fs p) q = readFile fs q := by
  induction fs with
  | nil => rfl
  | cons el rest ih =>
    obtain ⟨r, c⟩ := el
    by_cases hr : r = p
    · rw [show removeFile ((r, c) :: rest) p = removeFile rest p from by
        simp [removeFile, hr]]
      rw [ih]
      rw [show readFile ((r, c) :: rest) q =
        if r = q then some c else readFile rest q from rfl]
      rw [if_neg (fun hh => h (by rw [← hh]; exact hr))]
    · rw [show removeFile ((r, c) :: rest) p = (r, c) :: removeFile rest p
        from by simp [removeFile, hr]]
      rw [show readFile ((r, c) :: removeFile rest p) q =
        if r = q then some c else readFile (removeFile rest p) q from rfl]
      rw [show readFile ((r, c) :: rest) q =
        if r = q then some c else readFile rest q from rfl]
      by_cases hrq : r = q
      · rw [if_pos hrq, if_pos hrq]
      · rw [if_neg hrq, if_neg hrq, ih]

theorem mapFst_removeFile (fs : FS) (p : RPath) :
    (removeFile fs p).map Prod.fst =
      (fs.map Prod.fst).filter (fun q => !(decide (q = p))) := by
  induction fs with
  | nil => rfl
  | cons el rest ih =>
    obtain ⟨r, c⟩ := el
    by_cases hr : r = p
    · subst hr
      simp [removeFile, List.filter_cons, ih]
    · simp [removeFile, hr, List.filter_cons, ih]

theorem filter_swap {α : Type} (a b : α → Bool) (l : List α) :
    (l.filter a).filter b = (l.filter b).filter a := by
  induction l with
  | nil => rfl
  | cons x rest ih =>
    by_cases hax : a x = true <;> by_cases hbx : b x = true <;>
      simp [List.filter_cons, hax, hbx, ih]

theorem findMarkdownFiles_removeFile (fs : FS) (p : RPath)
    (directory : RPath) :
    findMarkdownFiles (removeFile fs p) directory =
      (findMarkdownFiles fs directory).filter
        (fun q => !(decide (q = p))) := by
  unfold findMarkdownFiles
  rw [mapFst_removeFile]
  exact filter_swap _ _ _

theorem except_toOption_eq_some {ε α : Type} (x : Except ε α) (a : α)
    (h : x.toOption = some a) : x = .ok a := by
  cases x with
  | error e => simp [Except.toOption] at h
  | ok b => simp [Except.toOption] at h; rw [h]

theorem tryFrom_fs_congr (fs1 fs2 : FS)
    (decode : String → Option FrontMatter) (path : RPath) (lang : String)
    (h : readFile fs1 path = readFile fs2 path) :
    FileMetadata.tryFrom fs1 decode path lang =
      FileMetadata.tryFrom fs2 decode path lang := by
  unfold FileMetadata.tryFrom
  rw [h]

theorem tryFrom_error_lang_indep (fs : FS)
    (decode : String → Option FrontMatter) (path : RPath)
    (lang lang' : String) (e : Error)
    (h : FileMetadata.tryFrom fs decode path lang = .error e) :
    FileMetadata.tryFrom fs decode path lang' = .error e := by
  unfold FileMetadata.tryFrom at h ⊢
  cases hstem : path.fileStemQ with
  | none => rw [hstem] at h; exact h
  | some base_name =>
    rw [hstem] at h
    dsimp only at h ⊢
    cases hread : readFile fs path with
    | none => rw [hread] at h; exact h
    | some content =>
      rw [hread] at h
      dsimp only at h ⊢
      cases hfen : findFencesAux (splitChar content '\n') 0 none with
      | none => rw [hfen] at h; exact h
      | some se =>
        obtain ⟨start, stop⟩ := se
        rw [hfen] at h
        dsimp only at h ⊢
        cases hdec : decode (joinNL
            (((splitChar content '\n').drop (start + 1)).take
              (stop - (start + 1)))) with
        | none => rw [hdec] at h; exact h
        | some fm => rw [hdec] at h; cases h

theorem tryFrom_ok_fields (fs : FS)
    (decode : String → Option FrontMatter) (path : RPath) (lang : String)
    (m : FileMetadata)
    (h : FileMetadata.tryFrom fs decode path lang = .ok m) :
    m.path = path ∧ m.language_identifier = lang := by
  unfold FileMetadata.tryFrom at h
  cases hstem : path.fileStemQ with
  | none => rw [hstem] at h; cases h
  | some base_name =>
    rw [hstem] at h
    dsimp only at h
    cases hread : readFile fs path with
    | none => rw [hread] at h; cases h
    | some content =>
      rw [hread] at h
      dsimp only at h
      cases hfen : findFencesAux (splitChar content '\n') 0 none with
      | none => rw [hfen] at h; cases h
      | some se =>
        obtain ⟨start, stop⟩ := se
        rw [hfen] at h
        dsimp only at h
        cases hdec : decode (joinNL
            (((splitChar content '\n').drop (start + 1)).take
              (stop - (start + 1)))) with
        | none => rw [hdec] at h; cases h
        | some fm =>
          rw [hdec] at h
          cases h
          exact ⟨rfl, rfl⟩

theorem filterMap_remove_eq {α β : Type} [DecidableEq α]
    (g g' : α → Option β) (p : α) (l : List α)
    (hne : ∀ q, q ≠ p → g' q = g q) (hp : g p = none) :
    (l.filter (fun q => !(decide (q = p)))).filterMap g' =
      l.filterMap g := by
  induction l with
  | nil => rfl
  | cons q rest ih =>
    by_cases hq : q = p
    · subst hq
      rw [List.filter_cons, if_neg (by simp)]
      rw [show (q :: rest).filterMap g = rest.filterMap g from by
        rw [List.filterMap_cons, hp]]
      exact ih
    · rw [List.filter_cons, if_pos (by simp [hq])]
      rw [List.filterMap_cons, List.filterMap_cons, hne q hq]
      cases g q with
      | none => exact ih
      | some b => rw [ih]

theorem processLanguage_removeFile (fs : FS)
    (decode : String → Option FrontMatter) (drafts : List RPath)
    (p : RPath) (e : Error)
    (hfail : ∀ lang, FileMetadata.tryFrom fs decode p lang = .error e)
    (st : RunState) (lang : String) (lc : HugoLanguageConfig) :
    processLanguage (removeFile fs p) decode drafts st lang lc =
      processLanguage fs decode drafts st lang lc := by
  unfold processLanguage
  dsimp only
  have htf : (findMarkdownFiles (removeFile fs p) lc.content_dir).filterMap
      (fun q => (FileMetadata.tryFrom (removeFile fs p) decode q
        lang).toOption) =
      (findMarkdownFiles fs lc.content_dir).filterMap
      (fun q => (FileMetadata.tryFrom fs decode q lang).toOption) := by
    rw [findMarkdownFiles_removeFile]
    apply filterMap_remove_eq
    · intro q hq
      rw [tryFrom_fs_congr (removeFile fs p) fs decode q lang
        (readFile_removeFile_ne fs p q hq)]
    · rw [hfail lang]
      rfl
  rw [htf]

theorem collectState_removeFile (fs : FS)
    (decode : String → Option FrontMatter) (drafts : List RPath)
    (p : RPath) (e : Error)
    (hfail : ∀ lang, FileMetadata.tryFrom fs decode p lang = .error e)
    (cfg : HugoConfig) :
    collectState (removeFile fs p) decode drafts cfg =
      collectState fs decode drafts cfg := by
  unfold collectState
  have hfun : (fun (st : RunState) (q : String × HugoLanguageConfig) =>
      processLanguage (removeFile fs p) decode drafts st q.1 q.2) =
      (fun st q => processLanguage fs decode drafts st q.1 q.2) := by
    funext st q
    exact processLanguage_removeFile fs decode drafts p e hfail st q.1 q.2
  rw [hfun]

theorem collect_files_tryFrom (fs : FS)
    (decode : String → Option FrontMatter) (drafts : List RPath)
    (cfg : HugoConfig) :
    ∀ m' ∈ (collectState fs decode drafts cfg).files_metadata,
      FileMetadata.tryFrom fs decode m'.path m'.language_identifier =
        .ok m' := by
  have hstep : ∀ (st : RunState) (q : String × HugoLanguageConfig),
      (∀ m' ∈ st.files_metadata,
        FileMetadata.tryFrom fs decode m'.path m'.language_identifier =
          .ok m') →
      ∀ m' ∈ (processLanguage fs decode drafts st q.1 q.2).files_metadata,
        FileMetadata.tryFrom fs decode m'.path m'.language_identifier =
          .ok m' := by
    intro st q hP m' hm'
    unfold processLanguage at hm'
    dsimp only at hm'
    rcases List.mem_append.mp hm' with h | h
    · exact hP m' h
    · have hmem := (List.mem_filter.mp h).1
      obtain ⟨r, _hr, hro⟩ := List.mem_filterMap.mp hmem
      have hok := except_toOption_eq_some _ _ hro
      obtain ⟨hpath, hlang⟩ := tryFrom_ok_fields fs decode r q.1 m' hok
      rw [hpath, hlang]
      exact hok
  have h0 : ∀ m' ∈ (⟨[], []⟩ : RunState).files_metadata,
      FileMetadata.tryFrom fs decode m'.path m'.language_identifier =
        .ok m' := by
    intro m' hm'
    cases hm'
  unfold collectState
  exact foldl_invariant
    (fun st => ∀ m' ∈ st.files_metadata,
      FileMetadata.tryFrom fs decode m'.path m'.language_identifier =
        .ok m')
    (fun st q => processLanguage fs decode drafts st q.1 q.2)
    cfg.language_configs ⟨[], []⟩ h0 hstep

theorem processMetadata_fs_congr (fs1 fs2 : FS) (cfg : HugoConfig)
    (tr : MTranslator) (idx : TranslationIndex) (m : FileMetadata)
    (h : readFile fs1 m.path = readFile fs2 m.path) :
    processMetadata fs1 cfg tr idx m = processMetadata fs2 cfg tr idx m := by
  unfold processMetadata
  rw [h]

theorem translateAll_fs_congr (fs1 fs2 : FS) (cfg : HugoConfig)
    (tr : MTranslator) (idx : TranslationIndex) (ms : List FileMetadata)
    (h : ∀ m ∈ ms, readFile fs1 m.path = readFile fs2 m.path) :
    translateAll fs1 cfg tr idx ms = translateAll fs2 cfg tr idx ms := by
  induction ms with
  | nil => rfl
  | cons m rest ih =>
    unfold translateAll
    rw [processMetadata_fs_congr fs1 fs2 cfg tr idx m
      (h m (List.mem_cons_self m rest))]
    rw [ih (fun m' hm' => h m' (List.mem_cons_of_mem m hm'))]

/-- C4: a file on which extraction fails (read failure, missing front
matter, or malformed front matter) is not fatal to the run: the document
never becomes a source, and the run behaves exactly as if the file were
absent from the filesystem — all remaining files are processed the same
way. -/
theorem extractor_failure_not_fatal (tr : MTranslator) (inp : RunInput)
    (p : RPath) (lang0 : String) (e : Error)
    (he : FileMetadata.tryFrom inp.fs inp.decode p lang0 = .error e)
    (_hkind : e = .CouldNotReadFile p ∨ e = .NoFrontMatterFound p ∨
      e = .FrontMatterParsingFailed) :
    run tr { inp with fs := removeFile inp.fs p } = run tr inp ∧
    (∀ cfg, HugoConfig.new inp.dto inp.root = some cfg →
      ∀ m' ∈ (collectState inp.fs inp.decode
          (if inp.draftsFlag then [] else inp.draftList)
          cfg).files_metadata, m'.path ≠ p) := by
  have hfail : ∀ lang,
      FileMetadata.tryFrom inp.fs inp.decode p lang = .error e :=
    fun lang => tryFrom_error_lang_indep inp.fs inp.decode p lang0 lang e he
  have hnotsrc : ∀ (cfg : HugoConfig) (drafts : List RPath),
      ∀ m' ∈ (collectState inp.fs inp.decode drafts cfg).files_metadata,
        m'.path ≠ p := by
    intro cfg drafts m' hm' heq
    have hok := collect_files_tryFrom inp.fs inp.decode drafts cfg m' hm'
    rw [heq, hfail m'.language_identifier] at hok
    cases hok
  refine ⟨?_, fun cfg _ => hnotsrc cfg _⟩
  unfold run
  dsimp only
  cases hcfg : HugoConfig.new inp.dto inp.root with
  | none => rfl
  | some cfg =>
    dsimp only
    by_cases hlen : cfg.language_configs.length < 2
    · rw [if_pos hlen, if_pos hlen]
    · rw [if_neg hlen, if_neg hlen]
      rw [collectState_removeFile inp.fs inp.decode _ p e hfail cfg]
      apply translateAll_fs_congr
      intro m hm
      exact readFile_removeFile_ne inp.fs p m.path (hnotsrc cfg _ m hm)

/-- C4 witness: the fenceless `b.md` is dropped and the run is identical to
the run without it. -/
theorem extractor_failure_not_fatal_witness :
    run dryRunTranslator
        { inputBadFile with fs := removeFile inputBadFile.fs enB } =
      run dryRunTranslator inputBadFile ∧
    metaEnA.path ≠ enB := by
  have h := extractor_failure_not_fatal dryRunTranslator inputBadFile enB
    "en" (.NoFrontMatterFound enB) (by decide) (Or.inr (Or.inl rfl))
  exact ⟨h.1, h.2 cfgEnFr (by decide) metaEnA (by decide)⟩
